import Mathlib

/-!
Verification of the TFT patch-note structured-extraction engine
(`main/parsers/tft_patch_parser.py`).

Strings are modelled as `List Char` (Python `str`).  The parsed markup tree
(BeautifulSoup's DOM) is modelled by the inductive `Node`; node identity (the
`el is intro` check in the source) is modelled by the node's pre-order index,
which is unique within one enumeration.  Character classes (`\s`, `\d`, `\b`,
`str.strip`, `str.upper`) are modelled on the ASCII range, which covers the
document alphabet of the parser.
-/

set_option maxHeartbeats 1000000

/-- Whitespace class used by Python `str.strip` / regex `\s` (ASCII fragment). -/
def pyIsSpace (c : Char) : Bool := c.isWhitespace

/-- Regex word-character class `\w` (for the `\b` boundaries in the TIER regex). -/
def isWordChar (c : Char) : Bool := c.isAlphanum || c == '_'

/-- Python `str.lstrip()`. -/
def lstrip (s : List Char) : List Char := s.dropWhile pyIsSpace

/-- Python `str.rstrip()`. -/
def rstrip (s : List Char) : List Char := (s.reverse.dropWhile pyIsSpace).reverse

/-- Python `str.strip()`. -/
def strip (s : List Char) : List Char := rstrip (lstrip s)

/-- Python `str.upper()` (ASCII fragment). -/
def upper (s : List Char) : List Char := s.map Char.toUpper

/-- Python `str.splitlines()` for newline-separated text: a trailing newline
produces no extra empty line and the empty string has no lines. -/
def splitLines : List Char → List (List Char)
  | [] => []
  | c :: rest =>
    if c = '\n' then [] :: splitLines rest
    else
      match splitLines rest with
      | [] => [[c]]
      | l :: ls => (c :: l) :: ls

/-- Full newline split (`str.split("\n")` semantics): always one more piece
than there are newlines.  Used to reason about `splitLines`. -/
def splitNL : List Char → List (List Char)
  | [] => [[]]
  | c :: rest =>
    if c = '\n' then [] :: splitNL rest
    else
      match splitNL rest with
      | [] => [[c]]
      | l :: ls => (c :: l) :: ls

/-- Python `sep.join(pieces)`. -/
def joinSep (sep : List Char) : List (List Char) → List Char
  | [] => []
  | [x] => x
  | x :: y :: ys => x ++ sep ++ joinSep sep (y :: ys)

/-- Python truthiness test `not ln.strip()` on a line. -/
def isBlank (l : List Char) : Bool := (strip l).isEmpty

/-- `_clean_text`: right-trim every line, drop leading/trailing blank lines,
rejoin with newline, strip the result. -/
def _clean_text (s : List Char) : List Char :=
  let lines := (splitLines s).map rstrip
  let lines2 := lines.dropWhile isBlank
  let lines3 := (lines2.reverse.dropWhile isBlank).reverse
  strip (joinSep ['\n'] lines3)

/-- Markup tree (BeautifulSoup DOM): tag elements carry an optional `id`
attribute, a class list and children; leaves are text nodes. -/
inductive Node where
  | text (s : List Char)
  | elem (tag : List Char) (idAttr : Option (List Char))
      (classes : List (List Char)) (children : List Node)

mutual

/-- All descendants of a node in document (pre-)order. -/
def nodeDesc : Node → List Node
  | .text _ => []
  | .elem _ _ _ cs => nodesDesc cs

/-- Descendants of a forest in document order (each root included). -/
def nodesDesc : List Node → List Node
  | [] => []
  | n :: ns => n :: (nodeDesc n ++ nodesDesc ns)

end

mutual

/-- The text-node strings below a node, in document order (BS4 `strings`). -/
def nodeStrings : Node → List (List Char)
  | .text s => [s]
  | .elem _ _ _ cs => nodesStrings cs

def nodesStrings : List Node → List (List Char)
  | [] => []
  | n :: ns => nodeStrings n ++ nodesStrings ns

end

/-- BS4 `node.get_text(sep, strip=True)`: strip each contained string, drop
the ones that become empty, join with the separator. -/
def get_text_strip (sep : List Char) (n : Node) : List Char :=
  joinSep sep (((nodeStrings n).map strip).filter (fun s => !s.isEmpty))

/-- `_render_node_as_text`. -/
def _render_node_as_text (n : Node) : List Char :=
  _clean_text (get_text_strip ['\n'] n)

/-- Tag name of a node (text nodes have none). -/
def tagOf : Node → List Char
  | .text _ => []
  | .elem t _ _ _ => t

def hasClass (cls : List Char) : Node → Bool
  | .text _ => false
  | .elem _ _ classes _ => classes.contains cls

def hasId (i : List Char) : Node → Bool
  | .text _ => false
  | .elem _ idAttr _ _ => idAttr == some i

/-- CSS selector `blockquote.blockquote.context`. -/
def isIntroSel (n : Node) : Bool :=
  tagOf n == "blockquote".toList &&
    (hasClass "blockquote".toList n && hasClass "context".toList n)

/-- CSS selector `.context-designers`. -/
def isDesignersSel (n : Node) : Bool := hasClass "context-designers".toList n

/-- CSS selector `#patch-notes-container`. -/
def isContainerSel (n : Node) : Bool := hasId "patch-notes-container".toList n

/-- Python substring test `pat in hay`. -/
def containsSub (pat : List Char) : List Char → Bool
  | [] => pat.isPrefixOf []
  | c :: t => pat.isPrefixOf (c :: t) || containsSub pat t

/-- `_major_group_from_h2`. -/
def _major_group_from_h2 (title : List Char) : List Char :=
  if containsSub "LARGE CHANGES".toList (upper (strip title)) then "large".toList
  else if containsSub "SMALL CHANGES".toList (upper (strip title)) then "small".toList
  else "all".toList

/-- `_category_from_h4`. -/
def _category_from_h4 (title : List Char) : List Char :=
  if "UNITS:".toList.isPrefixOf (upper (strip title)) then "champions".toList
  else if upper (strip title) = "TRAITS".toList then "traits".toList
  else if upper (strip title) = "AUGMENTS".toList then "augments".toList
  else if upper (strip title) = "CORE ITEMS".toList ∨
      upper (strip title) = "RADIANT ITEMS".toList ∨
      upper (strip title) = "ARTIFACTS".toList ∨
      upper (strip title) = "EMBLEMS".toList then "items".toList
  else "other".toList

/-- Value of a digit run, as Python `int()` parses it. -/
def digitsVal (ds : List Char) : Nat :=
  ds.foldl (fun a c => 10 * a + (c.toNat - '0'.toNat)) 0

/-- Greedy match of `\s*(\d+)\b` right after a matched `TIER` literal. -/
def tierAfter (rest : List Char) : Option Nat :=
  let rest2 := lstrip rest
  let ds := rest2.takeWhile Char.isDigit
  let rest3 := rest2.dropWhile Char.isDigit
  if ds = [] then none
  else
    match rest3 with
    | [] => some (digitsVal ds)
    | c :: _ => if isWordChar c then none else some (digitsVal ds)

/-- One attempted match of `TIER\s*(\d+)\b` at the head of the list
(the leading `\b` is checked by the caller). -/
def tierAt : List Char → Option Nat
  | 'T' :: 'I' :: 'E' :: 'R' :: rest => tierAfter rest
  | _ => none

/-- `re.search(r"\bTIER\s*(\d+)\b", s)`: scan left to right; `prevW` records
whether the previous character was a word character (for the leading `\b`). -/
def tierScan : List Char → Bool → Option Nat
  | [], _ => none
  | c :: cs, prevW =>
    match (if prevW then none else tierAt (c :: cs)) with
    | some n => some n
    | none => tierScan cs (isWordChar c)

/-- `_extract_unit_tier`. -/
def _extract_unit_tier (h4_title : List Char) : Option Nat :=
  if h4_title = [] then none
  else tierScan (upper (strip h4_title)) false

/-- One structured block (the `PatchBlock` TypedDict). -/
structure PatchBlock where
  category : List Char
  size : List Char
  h2 : List Char
  h4 : List Char
  order : Nat
  text : List Char
  lines : List (List Char)
  unit_tier : Option Nat
deriving DecidableEq

/-- `li` descendants of an element (`el.find_all("li", recursive=True)`). -/
def liOf (el : Node) : List Node :=
  (nodeDesc el).filter (fun n => tagOf n == "li".toList)

/-- The main document walk of `parse_tft_patch_blocks`: iterate over the
matched elements (with their pre-order indices), threading the heading
context and the order counter. -/
def walk : List (Nat × Node) → Option Nat → List Char → List Char → List Char → Nat →
    List PatchBlock
  | [], _, _, _, _, _ => []
  | (i, el) :: rest, introIdx, current_h2, current_size, current_h4, order =>
    if tagOf el = "h2".toList then
      let h2' := _clean_text (get_text_strip [' '] el)
      walk rest introIdx h2' (_major_group_from_h2 h2') current_h4 order
    else if tagOf el = "h4".toList then
      walk rest introIdx current_h2 current_size (_clean_text (get_text_strip [' '] el)) order
    else if tagOf el = "blockquote".toList ∧ introIdx = some i then
      walk rest introIdx current_h2 current_size current_h4 order
    else
      let cat := if current_h4 ≠ [] then _category_from_h4 current_h4 else "other".toList
      let unit_tier := if cat = "champions".toList then _extract_unit_tier current_h4 else none
      if tagOf el = "ul".toList then
        let lines := ((liOf el).map
          (fun li => _clean_text (get_text_strip [' '] li))).filter (fun ln => !ln.isEmpty)
        let text := _clean_text (joinSep ['\n'] lines)
        if text = [] then walk rest introIdx current_h2 current_size current_h4 order
        else
          { category := cat, size := current_size, h2 := current_h2, h4 := current_h4,
            order := order, text := text, lines := lines, unit_tier := unit_tier } ::
            walk rest introIdx current_h2 current_size current_h4 (order + 1)
      else
        let text := _render_node_as_text el
        if text = [] then walk rest introIdx current_h2 current_size current_h4 order
        else
          { category := cat, size := current_size, h2 := current_h2, h4 := current_h4,
            order := order, text := text, lines := [], unit_tier := unit_tier } ::
            walk rest introIdx current_h2 current_size current_h4 (order + 1)

/-- `soup.select_one("#patch-notes-container") or soup`. -/
def docRoot (soup : Node) : Node :=
  match (nodeDesc soup).enum.find? (fun p => isContainerSel p.2) with
  | some p => p.2
  | none => soup

/-- `root.select_one("blockquote.blockquote.context")`, with its pre-order index. -/
def introOf (root : Node) : Option (Nat × Node) :=
  (nodeDesc root).enum.find? (fun p => isIntroSel p.2)

/-- `root.select_one(".context-designers")`. -/
def designersOf (root : Node) : Option (Nat × Node) :=
  (nodeDesc root).enum.find? (fun p => isDesignersSel p.2)

/-- The `overview_parts` list built before the main walk. -/
def overviewParts (root : Node) : List (List Char) :=
  (match introOf root with
   | some p => [_render_node_as_text p.2]
   | none => []) ++
  (match designersOf root with
   | some p => [_render_node_as_text p.2]
   | none => [])

/-- The overview block (emitted iff `overview_parts` is non-empty). -/
def overviewBlocks (root : Node) : List PatchBlock :=
  if overviewParts root ≠ [] then
    [{ category := "overview".toList, size := "all".toList, h2 := [], h4 := [],
       order := 0, text := _clean_text (joinSep ('\n' :: ['\n']) (overviewParts root)),
       lines := [], unit_tier := none }]
  else []

/-- `root.find_all(["h2", "h4", "blockquote", "ul"], recursive=True)`,
keeping each element's pre-order index as its identity. -/
def walkEls (root : Node) : List (Nat × Node) :=
  (nodeDesc root).enum.filter (fun p =>
    tagOf p.2 == "h2".toList || tagOf p.2 == "h4".toList ||
    tagOf p.2 == "blockquote".toList || tagOf p.2 == "ul".toList)

/-- `parse_tft_patch_blocks`.  `none` models an absent or empty `raw_html`
string; `some soup` models a non-empty document parsed into a tree. -/
def parse_tft_patch_blocks : Option Node → List PatchBlock
  | none => []
  | some soup =>
    let root := docRoot soup
    overviewBlocks root ++
      walk (walkEls root) ((introOf root).map (fun p => p.1)) [] "all".toList []
        (overviewBlocks root).length

/-- The per-category accumulator (`Bucket` dataclass). -/
structure Bucket where
  all : List (List Char)
  large : List (List Char)
  small : List (List Char)
deriving DecidableEq

/-- The six fixed category keys, in output order. -/
def sixKeys : List (List Char) :=
  ["overview".toList, "champions".toList, "items".toList,
   "traits".toList, "augments".toList, "other".toList]

/-- `_mk_buckets`. -/
def _mk_buckets : List (List Char × Bucket) :=
  [("overview".toList, ⟨[], [], []⟩), ("champions".toList, ⟨[], [], []⟩),
   ("items".toList, ⟨[], [], []⟩), ("traits".toList, ⟨[], [], []⟩),
   ("augments".toList, ⟨[], [], []⟩), ("other".toList, ⟨[], [], []⟩)]

/-- Lookup of `buckets[cat]` in the keyed bucket list. -/
def bucketsGet (buckets : List (List Char × Bucket)) (cat : List Char) : Bucket :=
  match buckets.find? (fun p => p.1 == cat) with
  | some p => p.2
  | none => ⟨[], [], []⟩

/-- The three appends `buckets[cat].all.append(block)` (plus the conditional
`large`/`small` ones) performed on one bucket. -/
def updBucket (size block : List Char) (bk : Bucket) : Bucket :=
  { all := bk.all ++ [block],
    large := if size = "large".toList then bk.large ++ [block] else bk.large,
    small := if size = "small".toList then bk.small ++ [block] else bk.small }

/-- `_append_bucket_block`. -/
def _append_bucket_block (buckets : List (List Char × Bucket))
    (cat size heading body : List Char) : List (List Char × Bucket) :=
  let body2 := _clean_text body
  if body2 = [] then buckets
  else
    let block := if heading ≠ [] then strip (heading ++ '\n' :: body2) else body2
    buckets.map fun p => if p.1 = cat then (p.1, updBucket size block p.2) else p

/-- `b["h4"] or b["h2"] or ""`. -/
def headingOf (b : PatchBlock) : List Char :=
  if b.h4 ≠ [] then b.h4 else if b.h2 ≠ [] then b.h2 else []

/-- One step of the bucket-filling loop of `parse_tft_patch_html`. -/
def bucketStep (buckets : List (List Char × Bucket)) (b : PatchBlock) :
    List (List Char × Bucket) :=
  _append_bucket_block buckets b.category b.size (headingOf b) b.text

/-- One entry of the output mapping: `{"all": ..., "large": ..., "small": ...}`. -/
structure OutBucket where
  all : List Char
  large : List Char
  small : List Char
deriving DecidableEq

/-- The output-building tail of `parse_tft_patch_html` (bucket fill plus the
final six-key ordered dict). -/
def aggregateOut (blocks : List PatchBlock) : List (List Char × OutBucket) :=
  let buckets := blocks.foldl bucketStep _mk_buckets
  sixKeys.map fun key =>
    (key,
      { all := _clean_text (joinSep ('\n' :: ['\n']) (bucketsGet buckets key).all),
        large := _clean_text (joinSep ('\n' :: ['\n']) (bucketsGet buckets key).large),
        small := _clean_text (joinSep ('\n' :: ['\n']) (bucketsGet buckets key).small) })

/-- `parse_tft_patch_html`. -/
def parse_tft_patch_html (raw : Option Node) : List (List Char × OutBucket) :=
  let blocks := parse_tft_patch_blocks raw
  if blocks = [] then [] else aggregateOut blocks

/-- `parse_tft_patch`: the public entry with the degradation ladder.
`raw_text` models the plain-text fallback (`[]` = absent or empty);
`raw_html` models the markup argument (`none` = absent or empty). -/
def parse_tft_patch (raw_text : List Char) (raw_html : Option Node) :
    List (List Char × OutBucket) :=
  let parsed := match raw_html with
    | some _ => parse_tft_patch_html raw_html
    | none => []
  if parsed ≠ [] then parsed
  else if raw_text ≠ [] then
    [("overview".toList, { all := strip raw_text, large := [], small := [] })]
  else []

/-! ## Example documents used as concrete inputs -/

/-- A list nested inside a non-intro quote-block (inside the container). -/
def dupDoc : Node :=
  .elem "html".toList none [] [
    .elem "div".toList (some "patch-notes-container".toList) [] [
      .elem "blockquote".toList none [] [
        .elem "ul".toList none [] [
          .elem "li".toList none [] [.text "Item A changed".toList]]]]]

/-- A document whose intro blockquote exists but holds no text at all. -/
def emptyIntroDoc : Node :=
  .elem "div".toList (some "patch-notes-container".toList) [] [
    .elem "blockquote".toList none ["blockquote".toList, "context".toList] []]

/-- A document with no recognizable container or walk targets. -/
def plainDoc : Node := .elem "div".toList none [] [.text "hello".toList]

/-! ## Claim theorems -/

/-- C8: calling the top-level parse entry with no markup (absent or empty,
modelled by `none`) and no fallback text (absent or empty, modelled by `[]`)
returns an empty result with no categories and no blocks, as a normal
successful value. -/
theorem parse_tft_patch_empty_input : parse_tft_patch [] none = [] := by decide

/-- C10: the main walk visits every matching descendant independently, so a
list nested inside a non-intro quote-block is emitted twice — once inside the
quote-block's text and once as a list block with `lines` — each Block
consuming its own order slot. -/
theorem parse_duplicates_nested_list :
    parse_tft_patch_blocks (some dupDoc) =
      [{ category := "other".toList, size := "all".toList, h2 := [], h4 := [],
         order := 0, text := "Item A changed".toList, lines := [], unit_tier := none },
       { category := "other".toList, size := "all".toList, h2 := [], h4 := [],
         order := 1, text := "Item A changed".toList,
         lines := ["Item A changed".toList], unit_tier := none }] := by decide

/-- C4: the parse is deterministic — the embedding is a pure function of the
input document, with the walk state threaded locally, so equal input
documents always yield identical Block sequences. -/
theorem parse_tft_patch_blocks_deterministic (d e : Option Node) (h : d = e) :
    parse_tft_patch_blocks d = parse_tft_patch_blocks e := by rw [h]

/-- Witness for C4 at a concrete document. -/
theorem parse_tft_patch_blocks_deterministic_witness :
    parse_tft_patch_blocks (some dupDoc) = parse_tft_patch_blocks (some dupDoc) :=
  parse_tft_patch_blocks_deterministic (some dupDoc) (some dupDoc) rfl

/-- C1 counterexample: with no markup and fallback text `" x "` (present and
non-empty), the result is a single overview Bucket whose `all` text is the
stripped `"x"`, not the fallback text verbatim. -/
theorem fallback_not_verbatim :
    parse_tft_patch " x ".toList none =
      [("overview".toList, { all := "x".toList, large := [], small := [] })] ∧
    "x".toList ≠ " x ".toList := by decide

/-- C1 (amended): when the markup pipeline yields zero Blocks and the fallback
text is present and non-empty, the result is a single synthetic overview
Bucket whose `all` text equals the fallback text stripped of leading and
trailing whitespace, with `large` and `small` empty. -/
theorem fallback_stripped (rt : List Char) (rh : Option Node)
    (hzero : rh = none ∨ parse_tft_patch_blocks rh = []) (hrt : rt ≠ []) :
    parse_tft_patch rt rh =
      [("overview".toList, { all := strip rt, large := [], small := [] })] := by
  have hparsed : (match rh with
      | some _ => parse_tft_patch_html rh
      | none => []) = [] := by
    cases rh with
    | none => rfl
    | some soup =>
      rcases hzero with h | h
      · exact absurd h (by simp)
      · simp [parse_tft_patch_html, h]
  simp only [parse_tft_patch, hparsed]
  simp [hrt]

/-- Witness for C1 (amended): a document with no recognizable structure plus
the spec's fallback example. -/
theorem fallback_stripped_witness :
    parse_tft_patch "Hotfix: emergency nerf to Item X".toList (some plainDoc) =
      [("overview".toList,
        { all := strip "Hotfix: emergency nerf to Item X".toList,
          large := [], small := [] })] :=
  fallback_stripped _ _ (Or.inr (by decide)) (by decide)

/-- C5: the category classifier maps a subheading title to `champions` when
its strip-and-uppercase normalization starts with `UNITS:`, to `traits`,
`augments` or `items` on the exact listed titles, and to `other` for the
empty string and every other title. -/
theorem category_from_h4_cases (t : List Char) :
    ("UNITS:".toList.isPrefixOf (upper (strip t)) = true →
      _category_from_h4 t = "champions".toList) ∧
    (upper (strip t) = "TRAITS".toList → _category_from_h4 t = "traits".toList) ∧
    (upper (strip t) = "AUGMENTS".toList → _category_from_h4 t = "augments".toList) ∧
    ((upper (strip t) = "CORE ITEMS".toList ∨ upper (strip t) = "RADIANT ITEMS".toList ∨
      upper (strip t) = "ARTIFACTS".toList ∨ upper (strip t) = "EMBLEMS".toList) →
      _category_from_h4 t = "items".toList) ∧
    (t = [] → _category_from_h4 t = "other".toList) ∧
    (¬"UNITS:".toList.isPrefixOf (upper (strip t)) = true →
      upper (strip t) ≠ "TRAITS".toList → upper (strip t) ≠ "AUGMENTS".toList →
      ¬(upper (strip t) = "CORE ITEMS".toList ∨ upper (strip t) = "RADIANT ITEMS".toList ∨
        upper (strip t) = "ARTIFACTS".toList ∨ upper (strip t) = "EMBLEMS".toList) →
      _category_from_h4 t = "other".toList) := by
  refine ⟨?_, ?_, ?_, ?_, ?_, ?_⟩
  · intro h; rw [_category_from_h4, if_pos h]
  · intro h; rw [_category_from_h4, h]; decide
  · intro h; rw [_category_from_h4, h]; decide
  · rintro (h | h | h | h) <;> (rw [_category_from_h4, h]; decide)
  · intro h; subst h; decide
  · intro h1 h2 h3 h4
    rw [_category_from_h4, if_neg h1, if_neg h2, if_neg h3, if_neg h4]

/-- Witness for C5 at a concrete title. -/
theorem category_from_h4_cases_witness :
    _category_from_h4 "Core Items".toList = "items".toList :=
  (category_from_h4_cases _).2.2.2.1 (Or.inl (by decide))

/-! ## Walk invariants -/

/-- Orders emitted by the main walk form the contiguous range starting at the
initial counter value. -/
theorem walk_orders (els : List (Nat × Node)) (ii : Option Nat) :
    ∀ (g2 sz g4 : List Char) (k : Nat),
      (walk els ii g2 sz g4 k).map (fun b => b.order) =
        List.range' k (walk els ii g2 sz g4 k).length := by
  induction els with
  | nil => intro g2 sz g4 k; simp [walk]
  | cons p rest ih =>
    intro g2 sz g4 k
    obtain ⟨i, el⟩ := p
    simp only [walk]
    split_ifs <;>
      first
        | exact ih _ _ _ _
        | (simp only [List.map_cons, List.length_cons, List.range'_succ, List.cons.injEq]
           exact ⟨trivial, ih _ _ _ _⟩)

/-- Every block emitted by the main walk has non-empty text, and its
`unit_tier` is `none` unless its category is `champions`. -/
theorem walk_block_facts (els : List (Nat × Node)) (ii : Option Nat) :
    ∀ (g2 sz g4 : List Char) (k : Nat) (b : PatchBlock),
      b ∈ walk els ii g2 sz g4 k →
        b.text ≠ [] ∧ (b.category = "champions".toList ∨ b.unit_tier = none) := by
  induction els with
  | nil => intro g2 sz g4 k b hb; simp [walk] at hb
  | cons p rest ih =>
    intro g2 sz g4 k b hb
    obtain ⟨i, el⟩ := p
    simp only [walk] at hb
    split_ifs at hb <;>
      first
        | exact ih _ _ _ _ _ hb
        | (rcases List.mem_cons.mp hb with rfl | hb'
           · refine ⟨by assumption, ?_⟩
             first
               | exact Or.inl (by assumption)
               | exact Or.inr rfl
           · exact ih _ _ _ _ _ hb')

/-- Unfolding of `parse_tft_patch_blocks` on a present document. -/
theorem parse_blocks_eq (soup : Node) :
    parse_tft_patch_blocks (some soup) =
      overviewBlocks (docRoot soup) ++
        walk (walkEls (docRoot soup)) ((introOf (docRoot soup)).map (fun p => p.1)) []
          "all".toList [] (overviewBlocks (docRoot soup)).length := rfl

/-- Membership in the overview pre-pass output pins the block down. -/
theorem mem_overviewBlocks (root : Node) (b : PatchBlock)
    (hb : b ∈ overviewBlocks root) :
    b.category = "overview".toList ∧ b.unit_tier = none ∧ b.order = 0 := by
  rw [overviewBlocks] at hb
  split_ifs at hb
  · rcases List.mem_singleton.mp hb with rfl
    exact ⟨rfl, rfl, rfl⟩
  · simp at hb

/-- C2 counterexample: on a document whose intro blockquote exists but holds
no text, the parse emits exactly one Block and its normalized text is empty,
so not every emitted Block has non-empty text. -/
theorem empty_overview_block_exists :
    (parse_tft_patch_blocks (some emptyIntroDoc)).map (fun b => b.text) = [[]] := by
  decide

/-- C2 (amended): for every input document the `order` values of the emitted
Block sequence form the contiguous range starting at 0 (or the sequence is
empty), and every emitted Block other than the overview block has non-empty
normalized text; the overview block's text can be empty exactly when the
intro/designer nodes exist but contain no text. -/
theorem parse_orders_contiguous (raw : Option Node) :
    (parse_tft_patch_blocks raw).map (fun b => b.order) =
      List.range (parse_tft_patch_blocks raw).length ∧
    ∀ b ∈ parse_tft_patch_blocks raw,
      b.category ≠ "overview".toList → b.text ≠ [] := by
  cases raw with
  | none => exact ⟨rfl, by simp [parse_tft_patch_blocks]⟩
  | some soup =>
    rw [parse_blocks_eq]
    by_cases hov : overviewParts (docRoot soup) ≠ []
    · rw [overviewBlocks, if_pos hov]
      constructor
      · simp only [List.singleton_append, List.map_cons, List.length_cons,
          List.range_eq_range', List.range'_succ]
        exact congrArg (List.cons 0) (walk_orders _ _ _ _ _ _)
      · intro b hb hcat
        rcases List.mem_cons.mp hb with rfl | hb'
        · exact absurd rfl hcat
        · exact (walk_block_facts _ _ _ _ _ _ _ hb').1
    · rw [overviewBlocks, if_neg hov]
      constructor
      · simpa [List.range_eq_range'] using walk_orders (walkEls (docRoot soup)) _ [] _ [] 0
      · intro b hb _
        exact (walk_block_facts _ _ _ _ _ _ _ (by simpa using hb)).1

/-- Witness for C2 (amended) at a concrete document. -/
theorem parse_orders_contiguous_witness :
    ({ category := "other".toList, size := "all".toList, h2 := [], h4 := [],
       order := 0, text := "Item A changed".toList, lines := [],
       unit_tier := none } : PatchBlock).text ≠ [] :=
  (parse_orders_contiguous (some dupDoc)).2 _ (by decide) (by decide)

/-- C3: every Block whose category is not `champions` has `unit_tier = none`;
a tier can be attached only to champion blocks. -/
theorem unit_tier_only_champions (raw : Option Node) (b : PatchBlock)
    (hb : b ∈ parse_tft_patch_blocks raw)
    (hc : b.category ≠ "champions".toList) : b.unit_tier = none := by
  cases raw with
  | none => simp [parse_tft_patch_blocks] at hb
  | some soup =>
    rw [parse_blocks_eq] at hb
    rcases List.mem_append.mp hb with hb' | hb'
    · exact (mem_overviewBlocks _ _ hb').2.1
    · rcases (walk_block_facts _ _ _ _ _ _ _ hb').2 with h | h
      · exact absurd h hc
      · exact h

/-- Witness for C3 at a concrete document and block. -/
theorem unit_tier_only_champions_witness :
    ({ category := "other".toList, size := "all".toList, h2 := [], h4 := [],
       order := 0, text := "Item A changed".toList, lines := [],
       unit_tier := none } : PatchBlock).unit_tier = none :=
  unit_tier_only_champions (some dupDoc) _ (by decide) (by decide)

/-! ## Bucket-aggregation lemmas -/

/-- Head unfolding of `bucketsGet`. -/
theorem bucketsGet_cons (q : List Char × Bucket) (qs : List (List Char × Bucket))
    (c : List Char) :
    bucketsGet (q :: qs) c = if q.1 = c then q.2 else bucketsGet qs c := by
  by_cases hq : q.1 = c
  · rw [if_pos hq, bucketsGet, List.find?_cons_of_pos _ (by simp [hq])]
  · rw [if_neg hq, bucketsGet, List.find?_cons_of_neg _ (by simp [hq])]
    rfl

/-- Updating the entry of a different key leaves a lookup unchanged. -/
theorem bucketsGet_mapUpd_ne (l : List (List Char × Bucket)) (cat c : List Char)
    (g : Bucket → Bucket) (h : cat ≠ c) :
    bucketsGet (l.map fun p => if p.1 = cat then (p.1, g p.2) else p) c =
      bucketsGet l c := by
  induction l with
  | nil => rfl
  | cons q qs ih =>
    rw [List.map_cons]
    by_cases hq : q.1 = cat
    · rw [if_pos hq, bucketsGet_cons, bucketsGet_cons]
      have : ¬q.1 = c := fun hc => h (hq ▸ hc)
      rw [if_neg (by simpa using this), if_neg this, ih]
    · rw [if_neg hq, bucketsGet_cons, bucketsGet_cons]
      by_cases hqc : q.1 = c
      · rw [if_pos hqc, if_pos hqc]
      · rw [if_neg hqc, if_neg hqc, ih]

/-- Updating the entry of a present key transforms exactly that lookup. -/
theorem bucketsGet_mapUpd_eq (l : List (List Char × Bucket)) (c : List Char)
    (g : Bucket → Bucket) (hf : (l.find? (fun p => p.1 == c)).isSome = true) :
    bucketsGet (l.map fun p => if p.1 = c then (p.1, g p.2) else p) c =
      g (bucketsGet l c) := by
  induction l with
  | nil => simp at hf
  | cons q qs ih =>
    rw [List.map_cons]
    by_cases hq : q.1 = c
    · rw [if_pos hq, bucketsGet_cons, bucketsGet_cons, if_pos hq]
      rw [if_pos (show (q.1, g q.2).1 = c from hq)]
    · rw [if_neg hq, bucketsGet_cons, bucketsGet_cons, if_neg hq, if_neg hq]
      refine ih ?_
      rwa [List.find?_cons_of_neg _ (by simp [hq])] at hf

/-- Appending a block for a different category leaves a bucket unchanged. -/
theorem bucketsGet_append_ne (buckets : List (List Char × Bucket))
    (cat' sz hd bd c : List Char) (h : cat' ≠ c) :
    bucketsGet (_append_bucket_block buckets cat' sz hd bd) c =
      bucketsGet buckets c := by
  simp only [_append_bucket_block]
  split_ifs <;> first
    | rfl
    | exact bucketsGet_mapUpd_ne _ _ _ _ h

/-- The fold over blocks none of which belongs to `cat` leaves `cat`'s bucket
unchanged. -/
theorem foldl_bucketStep_ne (blocks : List PatchBlock)
    (acc : List (List Char × Bucket)) (cat : List Char)
    (h : ∀ b ∈ blocks, b.category ≠ cat) :
    bucketsGet (blocks.foldl bucketStep acc) cat = bucketsGet acc cat := by
  induction blocks generalizing acc with
  | nil => rfl
  | cons b bs ih =>
    rw [List.foldl_cons, ih _ (fun x hx => h x (List.mem_cons_of_mem _ hx))]
    exact bucketsGet_append_ne _ _ _ _ _ _ (h b (List.mem_cons_self _ _))

/-- Every bucket of `_mk_buckets` is empty (also under the default lookup). -/
theorem bucketsGet_mk (c : List Char) : bucketsGet _mk_buckets c = ⟨[], [], []⟩ := by
  rw [_mk_buckets]
  rw [bucketsGet_cons, bucketsGet_cons, bucketsGet_cons, bucketsGet_cons,
    bucketsGet_cons, bucketsGet_cons]
  split_ifs <;> rfl

/-- C9: whenever the pipeline yields at least one Block, the Bucket view has
exactly the six fixed category keys, in order — and a category with no Block
maps to empty `all`/`large`/`small` strings. -/
theorem html_six_keys (raw : Option Node) (hne : parse_tft_patch_blocks raw ≠ []) :
    (parse_tft_patch_html raw).map (fun p => p.1) = sixKeys ∧
    ∀ p ∈ parse_tft_patch_html raw,
      (∀ b ∈ parse_tft_patch_blocks raw, b.category ≠ p.1) →
        p.2 = ⟨[], [], []⟩ := by
  have hout : parse_tft_patch_html raw = aggregateOut (parse_tft_patch_blocks raw) := by
    simp [parse_tft_patch_html, hne]
  constructor
  · rw [hout, aggregateOut]
    simp only [List.map_map]
    exact List.map_id _
  · intro p hp hcat
    rw [hout] at hp
    simp only [aggregateOut, List.mem_map] at hp
    obtain ⟨key, hkey, rfl⟩ := hp
    have hb : bucketsGet ((parse_tft_patch_blocks raw).foldl bucketStep _mk_buckets) key =
        ⟨[], [], []⟩ := by
      rw [foldl_bucketStep_ne _ _ _ (fun b hb => hcat b hb), bucketsGet_mk]
    simp only [hb]
    rfl

/-- Witness for C9 at a concrete document. -/
theorem html_six_keys_witness :
    (parse_tft_patch_html (some dupDoc)).map (fun p => p.1) = sixKeys :=
  (html_six_keys (some dupDoc) (by decide)).1

/-! ## String-normalization lemmas -/

/-- A list that is its own `dropWhile` fixpoint has a head failing the
predicate. -/
theorem head_false_of_dropWhile_self {p : Char → Bool} (a : Char) (l : List Char)
    (h : (a :: l).dropWhile p = a :: l) : p a = false := by
  by_contra hb
  rw [Bool.not_eq_false] at hb
  rw [List.dropWhile_cons_of_pos hb] at h
  have hle := (List.dropWhile_sublist (l := l) p).length_le
  rw [h] at hle
  simp at hle

/-- `lstrip` fixpoints absorb anything appended on the right. -/
theorem lstrip_append (xs ys : List Char) (hxs : lstrip xs = xs) (hne : xs ≠ []) :
    lstrip (xs ++ ys) = xs ++ ys := by
  obtain ⟨a, t, rfl⟩ : ∃ a t, xs = a :: t := by
    cases xs with
    | nil => exact absurd rfl hne
    | cons a t => exact ⟨a, t, rfl⟩
  have ha := head_false_of_dropWhile_self a t hxs
  rw [List.cons_append, lstrip, List.dropWhile_cons_of_neg (by simp [ha])]

/-- `rstrip` fixpoints absorb anything appended on the left. -/
theorem rstrip_append (xs ys : List Char) (hys : rstrip ys = ys) (hne : ys ≠ []) :
    rstrip (xs ++ ys) = xs ++ ys := by
  have hrev : ys.reverse.dropWhile pyIsSpace = ys.reverse := by
    have h2 := congrArg List.reverse hys
    rwa [rstrip, List.reverse_reverse] at h2
  obtain ⟨w, t, hwt⟩ : ∃ w t, ys.reverse = w :: t := by
    cases hys' : ys.reverse with
    | nil => exact absurd (by simpa using hys') hne
    | cons w t => exact ⟨w, t, rfl⟩
  have hw : pyIsSpace w = false := head_false_of_dropWhile_self w t (hwt ▸ hrev)
  rw [rstrip, List.reverse_append, hwt, List.cons_append,
    List.dropWhile_cons_of_neg (by simp [hw]), ← List.cons_append, ← hwt,
    List.reverse_append, List.reverse_reverse, List.reverse_reverse]

/-- Equation: `splitNL` on a leading newline. -/
theorem splitNL_cons_newline (rest : List Char) :
    splitNL ('\n' :: rest) = [] :: splitNL rest := by
  simp [splitNL]

/-- Equation: `splitNL` on a leading non-newline character. -/
theorem splitNL_cons_other (c : Char) (rest : List Char) (hc : c ≠ '\n')
    (l : List Char) (ls : List (List Char)) (h : splitNL rest = l :: ls) :
    splitNL (c :: rest) = (c :: l) :: ls := by
  simp only [splitNL, if_neg hc, h]

/-- Equation: `splitLines` on a leading newline. -/
theorem splitLines_cons_newline (rest : List Char) :
    splitLines ('\n' :: rest) = [] :: splitLines rest := by
  simp [splitLines]

/-- Equation: `splitLines` on a leading non-newline character. -/
theorem splitLines_cons_other (c : Char) (rest : List Char) (hc : c ≠ '\n')
    (l : List Char) (ls : List (List Char)) (h : splitLines rest = l :: ls) :
    splitLines (c :: rest) = (c :: l) :: ls := by
  simp only [splitLines, if_neg hc, h]

/-- Equation: `splitLines` on one non-newline character before a lineless rest. -/
theorem splitLines_cons_nil (c : Char) (rest : List Char) (hc : c ≠ '\n')
    (h : splitLines rest = []) : splitLines (c :: rest) = [[c]] := by
  simp only [splitLines, if_neg hc, h]

/-- Equation: `joinSep` on two or more pieces. -/
theorem joinSep_pair (sep x y : List Char) (ys : List (List Char)) :
    joinSep sep (x :: y :: ys) = x ++ sep ++ joinSep sep (y :: ys) := rfl

/-- `splitNL` never returns the empty list of pieces. -/
theorem splitNL_ne_nil (s : List Char) : splitNL s ≠ [] := by
  cases s with
  | nil => simp [splitNL]
  | cons c rest =>
    by_cases hc : c = '\n'
    · subst hc; rw [splitNL_cons_newline]; simp
    · cases h : splitNL rest with
      | nil =>
        simp only [splitNL, if_neg hc, h]
        simp
      | cons l ls =>
        rw [splitNL_cons_other c rest hc l ls h]
        simp

/-- `splitNL` is a homomorphism across an inserted newline. -/
theorem splitNL_append_newline (a b : List Char) :
    splitNL (a ++ '\n' :: b) = splitNL a ++ splitNL b := by
  induction a with
  | nil => rw [List.nil_append, splitNL_cons_newline]; rfl
  | cons c rest ih =>
    by_cases hc : c = '\n'
    · subst hc
      rw [List.cons_append, splitNL_cons_newline, splitNL_cons_newline, ih,
        List.cons_append]
    · rw [List.cons_append]
      cases h : splitNL rest with
      | nil => exact absurd h (splitNL_ne_nil rest)
      | cons l ls =>
        have h2 : splitNL (rest ++ '\n' :: b) = l :: (ls ++ splitNL b) := by
          rw [ih, h, List.cons_append]
        rw [splitNL_cons_other c _ hc _ _ h2, splitNL_cons_other c _ hc _ _ h,
          List.cons_append]

/-- Joining the full newline split with a newline restores the string. -/
theorem joinSep_splitNL (s : List Char) : joinSep ['\n'] (splitNL s) = s := by
  induction s with
  | nil => rfl
  | cons c rest ih =>
    by_cases hc : c = '\n'
    · subst hc
      rw [splitNL_cons_newline]
      cases h : splitNL rest with
      | nil => exact absurd h (splitNL_ne_nil rest)
      | cons l ls =>
        rw [h] at ih
        rw [joinSep_pair, ih]
        rfl
    · cases h : splitNL rest with
      | nil => exact absurd h (splitNL_ne_nil rest)
      | cons l ls =>
        rw [h] at ih
        rw [splitNL_cons_other c rest hc l ls h]
        cases ls with
        | nil =>
          simp only [joinSep] at ih ⊢
          rw [ih]
        | cons z zs =>
          rw [joinSep_pair] at ih
          rw [joinSep_pair, ← ih]
          simp

/-- The Python `splitlines` differs from the full split only by one trailing
empty piece (present exactly when the string ends with a newline). -/
theorem splitNL_eq_splitLines_or (s : List Char) :
    splitNL s = splitLines s ∨ splitNL s = splitLines s ++ [[]] := by
  induction s with
  | nil => exact Or.inr rfl
  | cons c rest ih =>
    by_cases hc : c = '\n'
    · subst hc
      rw [splitNL_cons_newline, splitLines_cons_newline]
      rcases ih with h | h
      · exact Or.inl (by rw [h])
      · exact Or.inr (by rw [h, List.cons_append])
    · rcases ih with h | h
      · cases hs : splitLines rest with
        | nil => exact absurd (h.trans hs) (splitNL_ne_nil rest)
        | cons l ls =>
          rw [splitNL_cons_other c rest hc l ls (by rw [h, hs]),
            splitLines_cons_other c rest hc l ls hs]
          exact Or.inl rfl
      · cases hs : splitLines rest with
        | nil =>
          have h1 : splitNL rest = [[]] := by rw [h, hs]; rfl
          rw [splitNL_cons_other c rest hc [] [] h1, splitLines_cons_nil c rest hc hs]
          exact Or.inl rfl
        | cons l ls =>
          have h1 : splitNL rest = l :: (ls ++ [[]]) := by
            rw [h, hs, List.cons_append]
          rw [splitNL_cons_other c rest hc l (ls ++ [[]]) h1,
            splitLines_cons_other c rest hc l ls hs, List.cons_append]
          exact Or.inr rfl

/-! ## Normalized text: definition and closure properties -/

/-- A string in the image of `_clean_text` (and non-empty): no surrounding
whitespace, every line right-trimmed, first and last line non-blank.  This is
the data model's invariant for Block `text` and heading fields. -/
def NiceText (s : List Char) : Prop :=
  s ≠ [] ∧ lstrip s = s ∧ rstrip s = s ∧
  (∀ ln ∈ splitNL s, rstrip ln = ln) ∧
  isBlank ((splitNL s).headD []) = false ∧
  isBlank ((splitNL s).getLastD []) = false

instance (s : List Char) : Decidable (NiceText s) := by
  unfold NiceText
  exact inferInstance

/-- Mapping a pointwise-identity function leaves a list unchanged. -/
theorem map_self_of_mem {α : Type} (f : α → α) (l : List α) (h : ∀ x ∈ l, f x = x) :
    l.map f = l := by
  induction l with
  | nil => rfl
  | cons a t ih =>
    rw [List.map_cons, h a (List.mem_cons_self a t),
      ih (fun x hx => h x (List.mem_cons_of_mem _ hx))]

/-- On normalized text the two line splits agree. -/
theorem splitLines_eq_of_nice (s : List Char) (h : NiceText s) :
    splitLines s = splitNL s := by
  rcases splitNL_eq_splitLines_or s with he | he
  · exact he.symm
  · exfalso
    have hlast := h.2.2.2.2.2
    rw [he, List.getLastD_concat] at hlast
    exact absurd hlast (by decide)

/-- `getLastD` looks only at a non-empty right part of an append. -/
theorem getLastD_append_right {α : Type} (xs ys : List α) (d : α) (h : ys ≠ []) :
    (xs ++ ys).getLastD d = ys.getLastD d := by
  rw [List.getLastD_eq_getLast?, List.getLastD_eq_getLast?, List.getLast?_append]
  cases hq : ys.getLast? with
  | none => exact absurd (List.getLast?_eq_none_iff.mp hq) h
  | some a => rfl

/-- Normalized text is a fixpoint of `_clean_text`. -/
theorem clean_of_nice (s : List Char) (h : NiceText s) : _clean_text s = s := by
  have hsl0 := splitLines_eq_of_nice s h
  obtain ⟨hne, hl, hr, hlines, hhead, hlast⟩ := h
  obtain ⟨l, ls, hsplit⟩ : ∃ l ls, splitNL s = l :: ls := by
    cases hq : splitNL s with
    | nil => exact absurd hq (splitNL_ne_nil s)
    | cons l ls => exact ⟨l, ls, rfl⟩
  have hsl : splitLines s = l :: ls := hsl0.trans hsplit
  rw [hsplit] at hlines hhead hlast
  simp only [List.headD_cons] at hhead
  simp only [_clean_text]
  rw [hsl, map_self_of_mem _ _ hlines,
    List.dropWhile_cons_of_neg (by simp [hhead])]
  obtain ⟨w, t, hwt⟩ : ∃ w t, (l :: ls).reverse = w :: t := by
    cases hq : (l :: ls).reverse with
    | nil => exact absurd hq (by simp)
    | cons w t => exact ⟨w, t, rfl⟩
  have hwl : (l :: ls).getLastD [] = w := by
    have h1 : (l :: ls).getLast? = some w := by
      rw [← List.head?_reverse, hwt]
      rfl
    rw [List.getLastD_eq_getLast?, h1]
    rfl
  have hwb : isBlank w = false := hwl ▸ hlast
  rw [hwt, List.dropWhile_cons_of_neg (by simp [hwb]), ← hwt, List.reverse_reverse]
  have hjs : joinSep ['\n'] (l :: ls) = s := by rw [← hsplit, joinSep_splitNL]
  rw [hjs, strip, hl, hr]

/-- Normalized text is a fixpoint of `strip`. -/
theorem strip_of_nice (s : List Char) (h : NiceText s) : strip s = s := by
  rw [strip, h.2.1, h.2.2.1]

/-- Joining two normalized texts with one newline stays normalized. -/
theorem nice_append_nl (x y : List Char) (hx : NiceText x) (hy : NiceText y) :
    NiceText (x ++ '\n' :: y) := by
  obtain ⟨hxne, hxl, hxr, hxlines, hxhead, hxlast⟩ := hx
  obtain ⟨hyne, hyl, hyr, hylines, hyhead, hylast⟩ := hy
  obtain ⟨l, ls, hsx⟩ : ∃ l ls, splitNL x = l :: ls := by
    cases hq : splitNL x with
    | nil => exact absurd hq (splitNL_ne_nil x)
    | cons l ls => exact ⟨l, ls, rfl⟩
  refine ⟨by simp [hxne], lstrip_append _ _ hxl hxne, ?_, ?_, ?_, ?_⟩
  · have he : x ++ '\n' :: y = (x ++ ['\n']) ++ y := by simp
    rw [he]
    exact rstrip_append _ _ hyr hyne
  · intro ln hln
    rw [splitNL_append_newline] at hln
    rcases List.mem_append.mp hln with hm | hm
    · exact hxlines ln hm
    · exact hylines ln hm
  · rw [splitNL_append_newline, hsx, List.cons_append, List.headD_cons]
    rw [hsx, List.headD_cons] at hxhead
    exact hxhead
  · rw [splitNL_append_newline, getLastD_append_right _ _ _ (splitNL_ne_nil y)]
    exact hylast

/-- Joining two normalized texts with a blank line stays normalized. -/
theorem nice_append_nl2 (x y : List Char) (hx : NiceText x) (hy : NiceText y) :
    NiceText (x ++ '\n' :: '\n' :: y) := by
  obtain ⟨hxne, hxl, hxr, hxlines, hxhead, hxlast⟩ := hx
  obtain ⟨hyne, hyl, hyr, hylines, hyhead, hylast⟩ := hy
  have hs : splitNL (x ++ '\n' :: '\n' :: y) = splitNL x ++ [] :: splitNL y := by
    rw [splitNL_append_newline, splitNL_cons_newline]
  obtain ⟨l, ls, hsx⟩ : ∃ l ls, splitNL x = l :: ls := by
    cases hq : splitNL x with
    | nil => exact absurd hq (splitNL_ne_nil x)
    | cons l ls => exact ⟨l, ls, rfl⟩
  refine ⟨by simp [hxne], lstrip_append _ _ hxl hxne, ?_, ?_, ?_, ?_⟩
  · have he : x ++ '\n' :: '\n' :: y = (x ++ ['\n', '\n']) ++ y := by simp
    rw [he]
    exact rstrip_append _ _ hyr hyne
  · intro ln hln
    rw [hs] at hln
    rcases List.mem_append.mp hln with hm | hm
    · exact hxlines ln hm
    · rcases List.mem_cons.mp hm with rfl | hm'
      · rfl
      · exact hylines ln hm'
  · rw [hs, hsx, List.cons_append, List.headD_cons]
    rw [hsx, List.headD_cons] at hxhead
    exact hxhead
  · have he2 : ([] :: splitNL y : List (List Char)) = [[]] ++ splitNL y := rfl
    rw [hs, getLastD_append_right _ _ _ (by simp), he2,
      getLastD_append_right _ _ _ (splitNL_ne_nil y)]
    exact hylast

/-- A blank-line join of normalized pieces is normalized. -/
theorem nice_joinSep2 (l : List (List Char)) (hne : l ≠ [])
    (h : ∀ p ∈ l, NiceText p) : NiceText (joinSep ('\n' :: ['\n']) l) := by
  induction l with
  | nil => exact absurd rfl hne
  | cons x xs ih =>
    cases xs with
    | nil => exact h x (List.mem_cons_self _ _)
    | cons y ys =>
      have hj := ih (by simp) (fun p hp => h p (List.mem_cons_of_mem _ hp))
      have hx := h x (List.mem_cons_self _ _)
      rw [joinSep_pair]
      have he : x ++ ('\n' :: ['\n']) ++ joinSep ('\n' :: ['\n']) (y :: ys) =
          x ++ '\n' :: '\n' :: joinSep ('\n' :: ['\n']) (y :: ys) := by simp
      rw [he]
      exact nice_append_nl2 _ _ hx hj

/-- `_clean_text` fixes a blank-line join of normalized pieces. -/
theorem clean_joinSep2 (l : List (List Char)) (h : ∀ p ∈ l, NiceText p) :
    _clean_text (joinSep ('\n' :: ['\n']) l) = joinSep ('\n' :: ['\n']) l := by
  cases l with
  | nil => rfl
  | cons x xs => exact clean_of_nice _ (nice_joinSep2 _ (by simp) h)

/-! ## The Bucket view as a concatenation of heading+body pieces -/

/-- Spec-side: one Block's contribution to its category's bucket, written as
`heading\nbody` when the heading (subheading, else major heading) is
non-empty, and the body alone otherwise. -/
def specPiece (b : PatchBlock) : List Char :=
  if headingOf b ≠ [] then headingOf b ++ '\n' :: b.text else b.text

/-- The data model's normalization invariant for one Block: normalized
non-empty body text, and normalized-or-empty heading fields. -/
def NiceBlock (b : PatchBlock) : Prop :=
  NiceText b.text ∧ (b.h4 = [] ∨ NiceText b.h4) ∧ (b.h2 = [] ∨ NiceText b.h2)

instance (b : PatchBlock) : Decidable (NiceBlock b) := by
  unfold NiceBlock
  exact inferInstance

/-- The chosen heading of a normalized Block is normalized when non-empty. -/
theorem nice_headingOf (b : PatchBlock) (hb4 : b.h4 = [] ∨ NiceText b.h4)
    (hb2 : b.h2 = [] ∨ NiceText b.h2) (hne : headingOf b ≠ []) :
    NiceText (headingOf b) := by
  rw [headingOf] at hne ⊢
  split_ifs at hne ⊢ with h4 h2
  · exact hb4.resolve_left h4
  · exact hb2.resolve_left h2
  · exact absurd rfl hne

/-- The heading+body piece of a normalized Block is normalized. -/
theorem nice_specPiece (b : PatchBlock) (hb : NiceBlock b) : NiceText (specPiece b) := by
  rw [specPiece]
  split_ifs with hh
  · exact nice_append_nl _ _ (nice_headingOf b hb.2.1 hb.2.2 hh) hb.1
  · exact hb.1

/-- Key-preserving bucket updates do not change which keys are findable. -/
theorem find?_isSome_mapUpd (l : List (List Char × Bucket)) (cat c : List Char)
    (g : Bucket → Bucket) :
    (((l.map fun p => if p.1 = cat then (p.1, g p.2) else p).find?
        (fun p => p.1 == c)).isSome) =
      ((l.find? (fun p => p.1 == c)).isSome) := by
  induction l with
  | nil => rfl
  | cons q qs ih =>
    rw [List.map_cons]
    by_cases hq : q.1 = cat
    · rw [if_pos hq]
      by_cases hqc : q.1 = c
      · rw [List.find?_cons_of_pos _ (by simp [hqc]),
          List.find?_cons_of_pos _ (by simp [hqc])]
        rfl
      · rw [List.find?_cons_of_neg _ (by simp [hqc]),
          List.find?_cons_of_neg _ (by simp [hqc]), ih]
    · rw [if_neg hq]
      by_cases hqc : q.1 = c
      · rw [List.find?_cons_of_pos _ (by simp [hqc]),
          List.find?_cons_of_pos _ (by simp [hqc])]
      · rw [List.find?_cons_of_neg _ (by simp [hqc]),
          List.find?_cons_of_neg _ (by simp [hqc]), ih]

/-- One bucket-fill step does not change which keys are findable. -/
theorem find?_isSome_bucketStep (acc : List (List Char × Bucket)) (b : PatchBlock)
    (c : List Char) :
    (((bucketStep acc b).find? (fun p => p.1 == c)).isSome) =
      ((acc.find? (fun p => p.1 == c)).isSome) := by
  rw [bucketStep]
  simp only [_append_bucket_block]
  split_ifs <;> first | rfl | exact find?_isSome_mapUpd _ _ _ _

/-- One bucket-fill step on a normalized Block appends exactly its
heading+body piece to its category's bucket. -/
theorem bucketsGet_step_eq (acc : List (List Char × Bucket)) (b : PatchBlock)
    (hk : (acc.find? (fun p => p.1 == b.category)).isSome = true)
    (hb : NiceBlock b) :
    bucketsGet (bucketStep acc b) b.category =
      updBucket b.size (specPiece b) (bucketsGet acc b.category) := by
  obtain ⟨hbt, hb4, hb2⟩ := hb
  have hclean : _clean_text b.text = b.text := clean_of_nice _ hbt
  rw [bucketStep]
  simp only [_append_bucket_block, hclean]
  rw [if_neg hbt.1]
  have hblk : (if headingOf b ≠ [] then strip (headingOf b ++ '\n' :: b.text)
      else b.text) = specPiece b := by
    rw [specPiece]
    split_ifs with hh
    · exact strip_of_nice _ (nice_append_nl _ _ (nice_headingOf b hb4 hb2 hh) hbt)
    · rfl
  rw [hblk]
  exact bucketsGet_mapUpd_eq _ _ _ hk

/-- Folding the bucket-fill over normalized Blocks appends, per category, the
order-preserving pieces of that category's Blocks (all sizes into `all`, and
the matching sizes into `large`/`small`). -/
theorem foldl_bucketStep_get (blocks : List PatchBlock)
    (acc : List (List Char × Bucket)) (cat : List Char)
    (hk : (acc.find? (fun p => p.1 == cat)).isSome = true)
    (h : ∀ b ∈ blocks, NiceBlock b) :
    bucketsGet (blocks.foldl bucketStep acc) cat =
      { all := (bucketsGet acc cat).all ++
          ((blocks.filter (fun b => b.category == cat)).map specPiece),
        large := (bucketsGet acc cat).large ++
          ((blocks.filter (fun b =>
            b.category == cat && b.size == "large".toList)).map specPiece),
        small := (bucketsGet acc cat).small ++
          ((blocks.filter (fun b =>
            b.category == cat && b.size == "small".toList)).map specPiece) } := by
  induction blocks generalizing acc with
  | nil => simp
  | cons b bs ih =>
    rw [List.foldl_cons]
    have hk' : (((bucketStep acc b).find? (fun p => p.1 == cat)).isSome) = true := by
      rw [find?_isSome_bucketStep]
      exact hk
    rw [ih _ hk' (fun x hx => h x (List.mem_cons_of_mem _ hx))]
    by_cases hbc : b.category = cat
    · have hstep := bucketsGet_step_eq acc b (by rw [hbc]; exact hk)
        (h b (List.mem_cons_self _ _))
      rw [hbc] at hstep
      rw [hstep]
      simp only [updBucket, Bucket.mk.injEq]
      refine ⟨?_, ?_, ?_⟩
      · rw [List.filter_cons_of_pos (by simp [hbc]), List.map_cons]
        simp [List.append_assoc]
      · by_cases hlg : b.size = "large".toList
        · rw [if_pos hlg, List.filter_cons_of_pos (by simp [hbc, hlg]), List.map_cons]
          simp [List.append_assoc]
        · rw [if_neg hlg, List.filter_cons_of_neg (by simp [hbc]; exact hlg)]
      · by_cases hsm : b.size = "small".toList
        · rw [if_pos hsm, List.filter_cons_of_pos (by simp [hbc, hsm]), List.map_cons]
          simp [List.append_assoc]
        · rw [if_neg hsm, List.filter_cons_of_neg (by simp [hbc]; exact hsm)]
    · have hstep : bucketsGet (bucketStep acc b) cat = bucketsGet acc cat := by
        rw [bucketStep]
        exact bucketsGet_append_ne _ _ _ _ _ _ hbc
      rw [hstep]
      have hbeq : (b.category == cat) = false := by simp [hbc]
      simp [List.filter_cons, hbeq]

/-- Lookup in the six-key output mapping. -/
def outGet (out : List (List Char × OutBucket)) (c : List Char) : OutBucket :=
  match out.find? (fun p => p.1 == c) with
  | some p => p.2
  | none => ⟨[], [], []⟩

/-- The output entry of each of the six keys, before text cleanup. -/
theorem outGet_aggregate (blocks : List PatchBlock) (cat : List Char)
    (hcat : cat ∈ sixKeys) :
    outGet (aggregateOut blocks) cat =
      { all := _clean_text (joinSep ('\n' :: ['\n'])
          (bucketsGet (blocks.foldl bucketStep _mk_buckets) cat).all),
        large := _clean_text (joinSep ('\n' :: ['\n'])
          (bucketsGet (blocks.foldl bucketStep _mk_buckets) cat).large),
        small := _clean_text (joinSep ('\n' :: ['\n'])
          (bucketsGet (blocks.foldl bucketStep _mk_buckets) cat).small) } := by
  simp only [sixKeys, List.mem_cons, List.mem_singleton] at hcat
  rcases hcat with rfl | rfl | rfl | rfl | rfl | rfl | h
  · rfl
  · rfl
  · rfl
  · rfl
  · rfl
  · rfl
  · exact absurd h (by simp)

/-- C7: for every Block sequence satisfying the data model's normalization
invariant and every category, the aggregated Bucket's `all` string equals the
order-preserving blank-line join of that category's Blocks' heading+body
pieces across all sizes (heading = subheading if non-empty, else major
heading, else empty; each piece `heading\nbody`, or the body alone), while
`large`/`small` are the same joins over the Blocks of the matching size. -/
theorem bucket_concatenation (blocks : List PatchBlock)
    (H : ∀ b ∈ blocks, NiceBlock b) (cat : List Char) (hcat : cat ∈ sixKeys) :
    outGet (aggregateOut blocks) cat =
      { all := joinSep ('\n' :: ['\n'])
          ((blocks.filter (fun b => b.category == cat)).map specPiece),
        large := joinSep ('\n' :: ['\n'])
          ((blocks.filter (fun b =>
            b.category == cat && b.size == "large".toList)).map specPiece),
        small := joinSep ('\n' :: ['\n'])
          ((blocks.filter (fun b =>
            b.category == cat && b.size == "small".toList)).map specPiece) } := by
  have hk : ((_mk_buckets.find? (fun p => p.1 == cat)).isSome) = true := by
    have hcat2 := hcat
    simp only [sixKeys, List.mem_cons, List.mem_singleton] at hcat2
    rcases hcat2 with rfl | rfl | rfl | rfl | rfl | rfl | hfalse
    · decide
    · decide
    · decide
    · decide
    · decide
    · decide
    · exact absurd hfalse (by simp)
  have hN : ∀ (P : PatchBlock → Bool),
      ∀ p ∈ ((blocks.filter P).map specPiece), NiceText p := by
    intro P p hp
    obtain ⟨b, hb, rfl⟩ := List.mem_map.mp hp
    exact nice_specPiece b (H b (List.mem_of_mem_filter hb))
  rw [outGet_aggregate blocks cat hcat,
    foldl_bucketStep_get blocks _mk_buckets cat hk H, bucketsGet_mk]
  simp only [OutBucket.mk.injEq]
  exact ⟨clean_joinSep2 _ (hN _), clean_joinSep2 _ (hN _), clean_joinSep2 _ (hN _)⟩

/-- A concrete Block list for the C7 witness (the spec's traits example). -/
def bsW : List PatchBlock :=
  [{ category := "traits".toList, size := "large".toList,
     h2 := "LARGE CHANGES".toList, h4 := "TRAITS".toList, order := 0,
     text := "Trait A now X\nTrait B now Y".toList,
     lines := ["Trait A now X".toList, "Trait B now Y".toList], unit_tier := none }]

/-- Witness for C7 at a concrete Block list and category. -/
theorem bucket_concatenation_witness :
    outGet (aggregateOut bsW) "traits".toList =
      { all := joinSep ('\n' :: ['\n'])
          ((bsW.filter (fun b => b.category == "traits".toList)).map specPiece),
        large := joinSep ('\n' :: ['\n'])
          ((bsW.filter (fun b =>
            b.category == "traits".toList && b.size == "large".toList)).map specPiece),
        small := joinSep ('\n' :: ['\n'])
          ((bsW.filter (fun b =>
            b.category == "traits".toList && b.size == "small".toList)).map specPiece) } :=
  bucket_concatenation bsW (by decide) _ (by decide)

/-! ## The TIER regex: correctness of the scan -/

/-- A digit is not regex whitespace. -/
theorem digit_not_space (c : Char) (h : c.isDigit = true) : pyIsSpace c = false := by
  by_contra hb
  rw [Bool.not_eq_false] at hb
  rw [pyIsSpace, Char.isWhitespace] at hb
  simp only [Bool.or_eq_true, decide_eq_true_eq] at hb
  rcases hb with ((h1 | h1) | h1) | h1 <;> (subst h1; exact absurd h (by decide))

/-- A digit is a regex word character. -/
theorem digit_word (c : Char) (h : c.isDigit = true) : isWordChar c = true := by
  rw [isWordChar, Char.isAlphanum]
  simp [h]

/-- The leading word boundary `\b` before the match position: the position is
at the start of the scan (flag `false`) or follows a non-word character. -/
def boundaryOk (prevW : Bool) (pre : List Char) : Prop :=
  match pre.getLast? with
  | none => prevW = false
  | some c => isWordChar c = false

/-- Claim-side characterization of `\bTIER\s*(\d+)\b` matching somewhere in
`s` with captured value `n`: a decomposition into a prefix ending in a word
boundary, the literal token `TIER`, optional whitespace, a non-empty digit
run, and a remainder opening with a word boundary. -/
def tierMatch (s : List Char) (n : Nat) : Prop :=
  ∃ pre ws ds rest,
    s = pre ++ ("TIER".toList ++ (ws ++ (ds ++ rest))) ∧
    boundaryOk false pre ∧
    (∀ c ∈ ws, pyIsSpace c = true) ∧
    ds ≠ [] ∧ (∀ c ∈ ds, Char.isDigit c = true) ∧
    (rest = [] ∨ ∃ c rs, rest = c :: rs ∧ isWordChar c = false) ∧
    n = digitsVal ds

/-- The post-`TIER` matcher succeeds exactly on a whitespace-then-digits
decomposition closed by a word boundary. -/
theorem tierAfter_some_iff (rest : List Char) (n : Nat) :
    tierAfter rest = some n ↔
      ∃ ws ds rest',
        rest = ws ++ (ds ++ rest') ∧
        (∀ c ∈ ws, pyIsSpace c = true) ∧
        ds ≠ [] ∧ (∀ c ∈ ds, Char.isDigit c = true) ∧
        (rest' = [] ∨ ∃ c rs, rest' = c :: rs ∧ isWordChar c = false) ∧
        n = digitsVal ds := by
  constructor
  · intro h
    simp only [tierAfter] at h
    split_ifs at h with hds
    rcases hsp : (lstrip rest).dropWhile Char.isDigit with _ | ⟨c, tail⟩
    · rw [hsp] at h
      simp only [Option.some.injEq] at h
      refine ⟨rest.takeWhile pyIsSpace, (lstrip rest).takeWhile Char.isDigit, [],
        ?_, fun c hc => List.mem_takeWhile_imp hc, hds,
        fun c hc => List.mem_takeWhile_imp hc, Or.inl rfl, h.symm⟩
      have hds2 : (lstrip rest).takeWhile Char.isDigit = lstrip rest := by
        have h0 := List.takeWhile_append_dropWhile Char.isDigit (lstrip rest)
        rw [hsp, List.append_nil] at h0
        exact h0
      rw [List.append_nil, hds2, lstrip]
      exact (List.takeWhile_append_dropWhile _ _).symm
    · rw [hsp] at h
      have h2 : (if isWordChar c = true then none
          else some (digitsVal (List.takeWhile Char.isDigit (lstrip rest)))) =
            some n := h
      clear h
      split_ifs at h2 with hw
      simp only [Option.some.injEq] at h2
      rename' h2 => h
      refine ⟨rest.takeWhile pyIsSpace, (lstrip rest).takeWhile Char.isDigit,
        c :: tail, ?_, fun x hx => List.mem_takeWhile_imp hx, hds,
        fun x hx => List.mem_takeWhile_imp hx,
        Or.inr ⟨c, tail, rfl, by simpa using hw⟩, h.symm⟩
      have h0 := List.takeWhile_append_dropWhile Char.isDigit (lstrip rest)
      rw [hsp] at h0
      rw [h0, lstrip]
      exact (List.takeWhile_append_dropWhile _ _).symm
  · rintro ⟨ws, ds, rest', rfl, hws, hds, hdig, hbnd, rfl⟩
    obtain ⟨d, dt, rfl⟩ : ∃ d dt, ds = d :: dt := by
      cases ds with
      | nil => exact absurd rfl hds
      | cons d dt => exact ⟨d, dt, rfl⟩
    have hnd : ¬pyIsSpace d = true := by
      simp [digit_not_space d (hdig d (List.mem_cons_self _ _))]
    have h1 : lstrip (ws ++ ((d :: dt) ++ rest')) = (d :: dt) ++ rest' := by
      rw [lstrip, List.dropWhile_append_of_pos hws, List.cons_append,
        List.dropWhile_cons_of_neg hnd]
    have htk : ((d :: dt) ++ rest').takeWhile Char.isDigit = d :: dt := by
      rw [List.takeWhile_append_of_pos hdig]
      rcases hbnd with rfl | ⟨c, rs, rfl, hwc⟩
      · rw [List.takeWhile_nil, List.append_nil]
      · rw [List.takeWhile_cons_of_neg
          (fun hcd => by rw [digit_word c hcd] at hwc; cases hwc), List.append_nil]
    have hdr : ((d :: dt) ++ rest').dropWhile Char.isDigit = rest' := by
      rw [List.dropWhile_append_of_pos hdig]
      rcases hbnd with rfl | ⟨c, rs, rfl, hwc⟩
      · rfl
      · exact List.dropWhile_cons_of_neg
          (fun hcd => by rw [digit_word c hcd] at hwc; cases hwc)
    simp only [tierAfter, h1, htk, hdr]
    rw [if_neg (by simp)]
    rcases hbnd with rfl | ⟨c, rs, rfl, hwc⟩
    · rfl
    · simp [hwc]

/-- `tierAt` succeeds exactly when the text starts with the `TIER` literal
and the rest matches. -/
theorem tierAt_some_iff (l : List Char) (n : Nat) :
    tierAt l = some n ↔ ∃ rest, l = "TIER".toList ++ rest ∧ tierAfter rest = some n := by
  constructor
  · intro h
    rw [tierAt.eq_def] at h
    split at h
    · next rest => exact ⟨rest, rfl, h⟩
    · exact absurd h (by simp)
  · rintro ⟨rest, rfl, h⟩
    exact h

/-- Soundness of the scan: a hit decomposes the text at a position with a
valid left boundary where `tierAt` succeeds. -/
theorem tierScan_some (cs : List Char) :
    ∀ (prevW : Bool) (n : Nat), tierScan cs prevW = some n →
      ∃ pre rest, cs = pre ++ rest ∧ boundaryOk prevW pre ∧ tierAt rest = some n := by
  induction cs with
  | nil => intro prevW n h; exact absurd h (by simp [tierScan])
  | cons c cs ih =>
    intro prevW n h
    simp only [tierScan] at h
    rcases hq : (if prevW then none else tierAt (c :: cs)) with _ | m
    · rw [hq] at h
      obtain ⟨pre, rest, heq, hb, hAt⟩ := ih (isWordChar c) n h
      refine ⟨c :: pre, rest, by rw [List.cons_append, heq], ?_, hAt⟩
      cases pre with
      | nil => exact hb
      | cons a tl =>
        unfold boundaryOk at hb ⊢
        rw [List.getLast?_cons_cons]
        exact hb
    · rw [hq] at h
      have hmn : m = n := by simpa using h
      subst hmn
      have hp : prevW = false := by
        cases hpv : prevW
        · rfl
        · rw [hpv] at hq
          exact Option.noConfusion hq
      subst hp
      exact ⟨[], c :: cs, rfl, rfl, hq⟩

/-- Completeness of the scan: any boundary-valid match position makes the
scan return a hit. -/
theorem tierScan_isSome_of_match (pre : List Char) :
    ∀ (rest : List Char) (prevW : Bool) (n : Nat), boundaryOk prevW pre →
      tierAt rest = some n → ∃ m, tierScan (pre ++ rest) prevW = some m := by
  induction pre with
  | nil =>
    intro rest prevW n hb hAt
    have hp : prevW = false := hb
    subst hp
    cases rest with
    | nil => exact absurd hAt (by simp [tierAt])
    | cons c cs => exact ⟨n, by simp [tierScan, hAt]⟩
  | cons a t ih =>
    intro rest prevW n hb hAt
    rw [List.cons_append]
    have hb' : boundaryOk (isWordChar a) t := by
      cases t with
      | nil => exact hb
      | cons b bs =>
        unfold boundaryOk at hb ⊢
        rw [List.getLast?_cons_cons] at hb
        exact hb
    rcases hq : (if prevW then none else tierAt (a :: (t ++ rest))) with _ | m
    · obtain ⟨m, hm⟩ := ih rest (isWordChar a) n hb' hAt
      refine ⟨m, ?_⟩
      simp only [tierScan]
      rw [hq]
      exact hm
    · refine ⟨m, ?_⟩
      simp only [tierScan]
      rw [hq]

/-- C6: the tier extractor returns a value exactly when the strip-uppercased
title contains a word-bounded `TIER` token followed by optional whitespace
and a word-bounded non-empty digit run; the returned value is such a match's
parsed integer.  The function is total — absence is the `none` outcome, never
an exception. -/
theorem extract_unit_tier_correct (t : List Char) :
    (∀ n, _extract_unit_tier t = some n → tierMatch (upper (strip t)) n) ∧
    ((∃ n, tierMatch (upper (strip t)) n) ↔ ∃ n, _extract_unit_tier t = some n) := by
  have fwd : ∀ n, _extract_unit_tier t = some n → tierMatch (upper (strip t)) n := by
    intro n h
    rw [_extract_unit_tier] at h
    split_ifs at h with ht
    obtain ⟨pre, rest, heq, hb, hAt⟩ := tierScan_some _ _ _ h
    obtain ⟨rest0, rfl, hAfter⟩ := (tierAt_some_iff _ _).mp hAt
    obtain ⟨ws, ds, rest', heq2, hws, hds, hdig, hbnd, hn⟩ :=
      (tierAfter_some_iff _ _).mp hAfter
    exact ⟨pre, ws, ds, rest', by rw [heq, heq2], hb, hws, hds, hdig, hbnd, hn⟩
  have bwd : (∃ n, tierMatch (upper (strip t)) n) →
      ∃ n, _extract_unit_tier t = some n := by
    rintro ⟨n, pre, ws, ds, rest, heq, hb, hws, hds, hdig, hbnd, hn⟩
    have ht : ¬t = [] := by
      rintro rfl
      have h0 : ([] : List Char) = pre ++ ("TIER".toList ++ (ws ++ (ds ++ rest))) := heq
      have hlen := congrArg List.length h0
      simp [List.length_append] at hlen
      omega
    rw [_extract_unit_tier, if_neg ht]
    have hAt : tierAt ("TIER".toList ++ (ws ++ (ds ++ rest))) = some n :=
      (tierAt_some_iff _ _).mpr ⟨ws ++ (ds ++ rest), rfl,
        (tierAfter_some_iff _ _).mpr ⟨ws, ds, rest, rfl, hws, hds, hdig, hbnd, hn⟩⟩
    obtain ⟨m, hm⟩ := tierScan_isSome_of_match pre _ false n hb hAt
    rw [heq]
    exact ⟨m, hm⟩
  exact ⟨fwd, ⟨bwd, fun he => he.elim (fun n h => ⟨n, fwd n h⟩)⟩⟩

/-- Witness for C6 at the spec's champions subheading. -/
theorem extract_unit_tier_correct_witness :
    tierMatch (upper (strip "UNITS: Tier 2".toList)) 2 :=
  (extract_unit_tier_correct _).1 2 (by decide)
